import Mathlib

/-!
Verification development for the rbiips statistics entry points
(src/wtd_stat.cpp) and the data-table marshaling layer
(src/rbiips_utils.cpp).

Modelling conventions:
* machine doubles are modelled as exact rationals (ℚ); skewness, whose
  formula divides by Variance^1.5, is valued in ℝ;
* each statistics entry point returns the list of Push invocations it
  performed on its accumulator (in order) together with an
  Except-valued outcome, so that "fails with error kind E before any
  Push" is the statement that the trace is empty and the outcome is
  that error;
* the LogicError thrown on a length mismatch ("values and weights must
  have same length.") is the LengthMismatch kind of the error taxonomy;
* the accumulator classes (Accumulator, QuantileAccumulator,
  DiscreteAccumulator) come from the external Biips core library
  (common/Accumulator.hpp), which is not part of this repository;
  their behaviour is modelled from the spec where noted.
-/

namespace Rbiips

/-- An observation pushed into an accumulator: a (value, weight) pair. -/
abbrev Obs := ℚ × ℚ

/-- Error taxonomy of the spec (section 7). -/
inductive ErrKind where
  | lengthMismatch
  | invalidArgument
  | degenerateInput
deriving DecidableEq, Repr

/-- R-level results of the quantile / discrete entry points.
scalar models an unnamed length-one numeric (Rcpp::wrap of a double);
numVec models a numeric vector carrying a names attribute whose labels
are the numbers printed as strings (wtd_quantile names its output by the
probabilities); table models the names = positions, values = frequencies
vector returned by wtd_table. -/
inductive RVal where
  | scalar (q : ℚ)
  | numVec (entries : List (ℚ × ℚ))
  | table (entries : List (ℚ × ℚ))
deriving DecidableEq, Repr

/-- Total weight of a stream: W = Σ w_i. -/
def totalW (s : List Obs) : ℚ := (s.map Prod.snd).sum

/-- Weighted sum Σ w_i * x_i of a stream. -/
def sumWX (s : List Obs) : ℚ := (s.map (fun o => o.2 * o.1)).sum

/-- Weighted sum of squares Σ w_i * x_i^2 of a stream. -/
def sumWX2 (s : List Obs) : ℚ := (s.map (fun o => o.2 * o.1 ^ 2)).sum

/-- Modelled from the spec: the running state of the weighted moment
Accumulator of common/Accumulator.hpp (absent from this repository),
per section 4.1: total weight W, running weighted mean, and weighted
central power sum M2, updated by the weighted Welford recurrence. -/
structure MomState where
  W : ℚ
  mean : ℚ
  M2 : ℚ
deriving DecidableEq, Repr

/-- Modelled from the spec: initial (empty) moment accumulator state. -/
def MomState.init : MomState := ⟨0, 0, 0⟩

/-- Modelled from the spec: one weighted Welford push (section 4.1):
on each push, d = x − mean_prev, mean_new = mean_prev + w·d/W_new,
M2_new = M2 + w·d·(x − mean_new). -/
def MomState.push (st : MomState) (o : Obs) : MomState :=
  let x := o.1
  let w := o.2
  let Wnew := st.W + w
  let d := x - st.mean
  let meanNew := st.mean + w * d / Wnew
  { W := Wnew, mean := meanNew, M2 := st.M2 + w * d * (x - meanNew) }

/-- Folding a whole stream through the moment accumulator. -/
def momFold (s : List Obs) : MomState := s.foldl MomState.push MomState.init

/-- Modelled from the spec: the Mean() accessor of the accumulator. -/
def meanQ (s : List Obs) : ℚ := (momFold s).mean

/-- Modelled from the spec: the Variance() accessor, Variance = M2 / W. -/
def varQ (s : List Obs) : ℚ := (momFold s).M2 / (momFold s).W

/-- Weighted central power sum of order three about the final mean
(the centering-pass policy allowed by section 3 of the spec). -/
def m3Q (s : List Obs) : ℚ := (s.map (fun o => o.2 * (o.1 - meanQ s) ^ 3)).sum

/-- Weighted central power sum of order four about the final mean. -/
def m4Q (s : List Obs) : ℚ := (s.map (fun o => o.2 * (o.1 - meanQ s) ^ 4)).sum

/-- Modelled from the spec: Skewness = (M3 / W) / Variance^1.5
(section 4.1); the 1.5 power forces real-number values. -/
noncomputable def skewR (s : List Obs) : ℝ :=
  ((m3Q s / totalW s : ℚ) : ℝ) / Real.sqrt ((varQ s : ℚ) : ℝ) ^ 3

/-- Modelled from the spec: Kurtosis = (M4 / W) / Variance^2
(section 4.1); this one is rational-valued. -/
def kurtQ (s : List Obs) : ℚ := (m4Q s / totalW s) / varQ s ^ 2

/-- Ordering of observations by value, used to sort the pairs for the
inverse-CDF quantile. -/
def obsLE (a b : Obs) : Prop := a.1 ≤ b.1

instance : DecidableRel obsLE := fun a b => inferInstanceAs (Decidable (a.1 ≤ b.1))

instance : IsTotal Obs obsLE := ⟨fun a b => le_total a.1 b.1⟩

instance : IsTrans Obs obsLE := ⟨fun _ _ _ h1 h2 => le_trans h1 h2⟩

/-- Sorting the accumulated pairs by value ascending. -/
def sortObs (s : List Obs) : List Obs := s.insertionSort obsLE

/-- Modelled from the spec: scan of the value-sorted pair list with a
running cumulative weight, returning the first value at which the
cumulative weight reaches the threshold t (section 4.2). -/
def findQuant : List Obs → ℚ → ℚ → Option ℚ
  | [], _, _ => none
  | o :: rest, cum, t =>
      if t ≤ cum + o.2 then some o.1 else findQuant rest (cum + o.2) t

/-- Modelled from the spec: the Quantile(i) accessor of
QuantileAccumulator: smallest observed value whose cumulative weight
reaches p·W; 0 is returned when the scan never reaches the threshold
(possible only for p outside [0,1] or an empty stream, where the
original code's behaviour is not specified). -/
def quantileOf (s : List Obs) (p : ℚ) : ℚ :=
  (findQuant (sortObs s) 0 (p * totalW s)).getD 0

/-- Cumulative weight of a stream at x: total weight of the
observations whose value is ≤ x. -/
def cumW (s : List Obs) (x : ℚ) : ℚ :=
  ((s.filter (fun o => o.1 ≤ x)).map Prod.snd).sum

/-- Modelled from the spec: insertion of one weighted observation into
the value-keyed frequency mapping of DiscreteAccumulator (section 4.3),
kept as a list of (position, accumulated weight) pairs sorted by
position ascending. -/
def histInsert (x w : ℚ) : List (ℚ × ℚ) → List (ℚ × ℚ)
  | [] => [(x, w)]
  | (y, v) :: rest =>
      if x < y then (x, w) :: (y, v) :: rest
      else if x = y then (y, v + w) :: rest
      else (y, v) :: histInsert x w rest

/-- Folding a stream into the discrete histogram. -/
def histFold (s : List Obs) : List (ℚ × ℚ) :=
  s.foldl (fun h o => histInsert o.1 o.2 h) []

/-- Modelled from the spec: the Mode() accessor: the position with the
maximum accumulated weight, ties broken towards the smallest position
because the histogram is scanned in ascending order (section 4.3);
junk value 0 on an empty histogram. -/
def histMode (h : List (ℚ × ℚ)) : ℚ :=
  (h.foldl (fun best p => if best.2 < p.2 then p else best) ((0 : ℚ), (0 : ℚ))).1

/-! Entry points of src/wtd_stat.cpp.  Each returns the ordered list of
Push invocations it made, paired with its outcome.  Every function
first checks that values and weights have the same length and throws
the length-mismatch LogicError otherwise, before pushing anything. -/

/-- Transcribed from wtd_mean (wtd_stat.cpp lines 61-70): accumulate
checks lengths, registers MEAN, pushes every pair, then Mean() is
returned. -/
def wtdMean (values weights : List ℚ) : List Obs × Except ErrKind ℚ :=
  if values.length ≠ weights.length then ([], .error .lengthMismatch)
  else (values.zip weights, .ok (meanQ (values.zip weights)))

/-- Transcribed from wtd_var (wtd_stat.cpp lines 73-82). -/
def wtdVar (values weights : List ℚ) : List Obs × Except ErrKind ℚ :=
  if values.length ≠ weights.length then ([], .error .lengthMismatch)
  else (values.zip weights, .ok (varQ (values.zip weights)))

/-- Transcribed from wtd_skew (wtd_stat.cpp lines 85-94). -/
noncomputable def wtdSkew (values weights : List ℚ) : List Obs × Except ErrKind ℝ :=
  if values.length ≠ weights.length then ([], .error .lengthMismatch)
  else (values.zip weights, .ok (skewR (values.zip weights)))

/-- Transcribed from wtd_kurt (wtd_stat.cpp lines 97-106). -/
def wtdKurt (values weights : List ℚ) : List Obs × Except ErrKind ℚ :=
  if values.length ≠ weights.length then ([], .error .lengthMismatch)
  else (values.zip weights, .ok (kurtQ (values.zip weights)))

/-- The fixed name array of wtd_stat (wtd_stat.cpp line 50). -/
def statNames : List String := ["mean", "var", "skew", "kurt"]

/-- The four statistics in the fixed order of the features array
(wtd_stat.cpp line 37). -/
noncomputable def statList (s : List Obs) : List ℝ :=
  [((meanQ s : ℚ) : ℝ), ((varQ s : ℚ) : ℝ), skewR s, ((kurtQ s : ℚ) : ℝ)]

/-- Transcribed from wtd_stat (wtd_stat.cpp lines 40-48): a numeric
vector of length order is allocated, slot 0 receives Mean(),
and slots 1, 2, 3 receive Variance(), Skewness(), Kurtosis() only when
order reaches 2, 3, 4 respectively. -/
noncomputable def statVecBuild (s : List Obs) (k : ℕ) : List ℝ :=
  let v0 := List.replicate k (0 : ℝ)
  let v1 := v0.set 0 ((meanQ s : ℚ) : ℝ)
  let v2 := if 2 ≤ k then v1.set 1 ((varQ s : ℚ) : ℝ) else v1
  let v3 := if 3 ≤ k then v2.set 2 (skewR s) else v2
  if 4 ≤ k then v3.set 3 ((kurtQ s : ℚ) : ℝ) else v3

/-- Transcribed from wtd_stat (wtd_stat.cpp lines 31-58): accumulate
checks lengths first; the features array has only four entries, so an
order of five or more reads past its end before any push (undefined
behaviour, modelled as no pushes and no result); an order of zero
pushes every pair and then writes stat_vec[0] on an empty vector
(undefined behaviour after the pushes, modelled as no result); for
order 1..4 the named vector of the first order statistics is built. -/
noncomputable def wtdStat (values weights : List ℚ) (order : ℕ) :
    List Obs × Except ErrKind (Option (List (String × ℝ))) :=
  if values.length ≠ weights.length then ([], .error .lengthMismatch)
  else if 5 ≤ order then ([], .ok none)
  else
    let s := values.zip weights
    if order = 0 then (s, .ok none)
    else (s, .ok (some ((statNames.take order).zip (statVecBuild s order))))

/-- Transcribed from wtd_quantile (wtd_stat.cpp lines 109-133): lengths
are checked, every pair is pushed into a QuantileAccumulator built from
the probability list as given (no validation of the probabilities), and
the output vector is named by the probabilities. -/
def wtdQuantile (values weights probs : List ℚ) : List Obs × Except ErrKind RVal :=
  if values.length ≠ weights.length then ([], .error .lengthMismatch)
  else
    let s := values.zip weights
    (s, .ok (.numVec (probs.map (fun p => (p, quantileOf s p)))))

/-- Transcribed from wtd_median (wtd_stat.cpp lines 136-155): lengths
are checked, every pair is pushed into a QuantileAccumulator built with
the single probability 0.5, and Quantile(0) is returned bare (an
unnamed scalar, via Rcpp::wrap). -/
def wtdMedian (values weights : List ℚ) : List Obs × Except ErrKind RVal :=
  if values.length ≠ weights.length then ([], .error .lengthMismatch)
  else
    let s := values.zip weights
    (s, .ok (.scalar (quantileOf s (1 / 2))))

/-- Transcribed from wtd_table (wtd_stat.cpp lines 159-184): lengths
are checked, every pair is pushed into a DiscreteAccumulator, and the
histogram positions (as names) and frequencies are returned. -/
def wtdTable (values weights : List ℚ) : List Obs × Except ErrKind RVal :=
  if values.length ≠ weights.length then ([], .error .lengthMismatch)
  else
    let s := values.zip weights
    (s, .ok (.table (histFold s)))

/-- Transcribed from wtd_mode (wtd_stat.cpp lines 187-204). -/
def wtdMode (values weights : List ℚ) : List Obs × Except ErrKind RVal :=
  if values.length ≠ weights.length then ([], .error .lengthMismatch)
  else
    let s := values.zip weights
    (s, .ok (.scalar (histMode (histFold s))))

/-! Process-wide mutable state of src/rbiips_utils.cpp: the globals
VERBOSITY and BASE_MODULE_LOADED (lines 6-7).  For the hyperproperty
claim the statistics entry points are given the ambient global state
explicitly and return the (possibly updated) state; the transcribed
bodies of the wtd_* functions reference neither global, which the
following wrappers record faithfully. -/

/-- The ambient global variables of rbiips_utils.cpp lines 6-7. -/
structure Globals where
  verbosity : ℕ
  baseModuleLoaded : Bool
deriving DecidableEq, Repr

/-- wtd_stat with the ambient globals threaded through: its body never
reads or writes VERBOSITY or BASE_MODULE_LOADED. -/
noncomputable def wtdStatG (g : Globals) (values weights : List ℚ) (order : ℕ) :
    (List Obs × Except ErrKind (Option (List (String × ℝ)))) × Globals :=
  (wtdStat values weights order, g)

/-- wtd_mean with the ambient globals threaded through. -/
def wtdMeanG (g : Globals) (values weights : List ℚ) :
    (List Obs × Except ErrKind ℚ) × Globals :=
  (wtdMean values weights, g)

/-- wtd_var with the ambient globals threaded through. -/
def wtdVarG (g : Globals) (values weights : List ℚ) :
    (List Obs × Except ErrKind ℚ) × Globals :=
  (wtdVar values weights, g)

/-- wtd_skew with the ambient globals threaded through. -/
noncomputable def wtdSkewG (g : Globals) (values weights : List ℚ) :
    (List Obs × Except ErrKind ℝ) × Globals :=
  (wtdSkew values weights, g)

/-- wtd_kurt with the ambient globals threaded through. -/
def wtdKurtG (g : Globals) (values weights : List ℚ) :
    (List Obs × Except ErrKind ℚ) × Globals :=
  (wtdKurt values weights, g)

/-- wtd_quantile with the ambient globals threaded through. -/
def wtdQuantileG (g : Globals) (values weights probs : List ℚ) :
    (List Obs × Except ErrKind RVal) × Globals :=
  (wtdQuantile values weights probs, g)

/-- wtd_median with the ambient globals threaded through. -/
def wtdMedianG (g : Globals) (values weights : List ℚ) :
    (List Obs × Except ErrKind RVal) × Globals :=
  (wtdMedian values weights, g)

/-- wtd_table with the ambient globals threaded through. -/
def wtdTableG (g : Globals) (values weights : List ℚ) :
    (List Obs × Except ErrKind RVal) × Globals :=
  (wtdTable values weights, g)

/-- wtd_mode with the ambient globals threaded through. -/
def wtdModeG (g : Globals) (values weights : List ℚ) :
    (List Obs × Except ErrKind RVal) × Globals :=
  (wtdMode values weights, g)

/-! Data-table marshaling (src/rbiips_utils.cpp lines 20-110).
The double domain of an R numeric vector is modelled as an inductive
with the two missing-value sentinels NA_REAL and BIIPS_REALNA as
distinguished atoms and ordinary numbers as rationals; std::replace_copy
with sentinel arguments is elementwise replacement under equality. -/

/-- A double in the marshaling layer: R's NA_REAL sentinel, Biips's
BIIPS_REALNA sentinel, or an ordinary number. -/
inductive RD where
  | na
  | biipsNA
  | num (q : ℚ)
deriving DecidableEq, Repr

/-- std::replace_copy over a value sequence: every element equal to a
is emitted as b, every other element is copied unchanged. -/
def replaceCopy (a b : RD) (l : List RD) : List RD :=
  l.map (fun x => if x = a then b else x)

/-- An R numeric variable: its value sequence and its optional dim
attribute. -/
structure RVar where
  vals : List RD
  dim : Option (List ℕ)
deriving DecidableEq, Repr

/-- A Biips MultiArray: a dimension array and a value array. -/
structure MultiArray where
  dim : List ℕ
  vals : List RD
deriving DecidableEq, Repr

/-- Transcribed from writeDataTable (rbiips_utils.cpp lines 45-62):
a variable without a dim attribute receives the one-dimensional
DimArray [length]; with a dim attribute the dims are copied; in both
cases the values are copied with NA_REAL replaced by BIIPS_REALNA. -/
def writeVar (v : RVar) : MultiArray :=
  match v.dim with
  | none => { dim := [v.vals.length], vals := replaceCopy .na .biipsNA v.vals }
  | some d => { dim := d, vals := replaceCopy .na .biipsNA v.vals }

/-- Transcribed from readDataTable (rbiips_utils.cpp lines 91-99):
an R vector of length Dim().Length() (the product of the dims,
zero-initialised) receives the values with BIIPS_REALNA replaced by
NA_REAL, and the dim attribute is always set from the MultiArray dims.
When the value array is longer than the dim product the original code
overruns the output buffer (undefined behaviour), modelled here as
truncation; when shorter, the zero-initialised tail remains. -/
def readVar (m : MultiArray) : RVar :=
  let len := m.dim.prod
  { vals := (replaceCopy .biipsNA .na m.vals).take len ++
      List.replicate (len - m.vals.length) (.num 0),
    dim := some m.dim }

/-- Insertion into the std::map of writeDataTable: replacement when the
key is present, append otherwise.  (The real map iterates in key-sorted
order; only lookups and membership are used by the claims, for which
insertion order is irrelevant.) -/
def mapInsert (k : String) (a : MultiArray) :
    List (String × MultiArray) → List (String × MultiArray)
  | [] => [(k, a)]
  | (k2, b) :: rest =>
      if k = k2 then (k, a) :: rest else (k2, b) :: mapInsert k a rest

/-- Outcome of writeDataTable: the produced map and whether the
missing-names warning was printed on rbiips_cerr. -/
structure WriteOut where
  table : List (String × MultiArray)
  warned : Bool
deriving DecidableEq, Repr

/-- Transcribed from writeDataTable (rbiips_utils.cpp lines 20-70):
if the data list has no names attribute, a warning is printed and the
empty map is returned (no exception is thrown on this path); otherwise
every named variable is converted with writeVar and stored in the map
under its name. -/
def writeDataTable (hasNames : Bool) (entries : List (String × RVar)) : WriteOut :=
  if hasNames then
    { table := entries.foldl (fun m e => mapInsert e.1 (writeVar e.2) m) [],
      warned := false }
  else { table := [], warned := true }

/-- Transcribed from readDataTable (rbiips_utils.cpp lines 73-110):
every map entry is converted back with readVar. -/
def readDataTable (t : List (String × MultiArray)) : List (String × RVar) :=
  t.map (fun e => (e.1, readVar e.2))

/-- The weighted mean as a closed formula: Σ w_i x_i / W. -/
def meanFormula (s : List Obs) : ℚ := sumWX s / totalW s

/-- Invariant tying the Welford moment state to the exact weighted
sums of the stream consumed so far: weight sum ws, weighted value sum
as, weighted square sum qs. -/
def MomInv (st : MomState) (ws as qs : ℚ) : Prop :=
  st.W = ws ∧ 0 ≤ st.W ∧ st.mean * st.W = as ∧ (st.W = 0 → st.mean = 0) ∧
    st.M2 = qs - st.W * st.mean ^ 2

/-- The dim attribute of an R variable is consistent with its length
(R guarantees this for every array; the default DimArray written for a
dim-less variable satisfies it trivially). -/
def dimOK (v : RVar) : Prop :=
  (v.dim.getD [v.vals.length]).prod = v.vals.length

instance (v : RVar) : Decidable (dimOK v) :=
  inferInstanceAs (Decidable (_ = _))

instance : DecidableEq (Except ErrKind RVal) := fun a b =>
  match a, b with
  | .ok x, .ok y => decidable_of_iff (x = y) (by constructor <;> intro h <;> simp_all)
  | .error x, .error y => decidable_of_iff (x = y) (by constructor <;> intro h <;> simp_all)
  | .ok _, .error _ => isFalse (by simp)
  | .error _, .ok _ => isFalse (by simp)

instance : DecidableEq (Except ErrKind ℚ) := fun a b =>
  match a, b with
  | .ok x, .ok y => decidable_of_iff (x = y) (by constructor <;> intro h <;> simp_all)
  | .error x, .error y => decidable_of_iff (x = y) (by constructor <;> intro h <;> simp_all)
  | .ok _, .error _ => isFalse (by simp)
  | .error _, .ok _ => isFalse (by simp)

/-! Claim theorems. -/

/-- C1: for every pair of input sequences of differing lengths, every
statistics entry point (wtd_stat, wtd_mean, wtd_var, wtd_skew,
wtd_kurt, wtd_quantile, wtd_median, wtd_table, wtd_mode) fails that
request with the LengthMismatch error kind and performs no Push before
the failure (the trace component is empty). -/
theorem length_mismatch_rejected_before_push (v w ps : List ℚ) (k : ℕ)
    (h : v.length ≠ w.length) :
    wtdStat v w k = ([], .error .lengthMismatch) ∧
    wtdMean v w = ([], .error .lengthMismatch) ∧
    wtdVar v w = ([], .error .lengthMismatch) ∧
    wtdSkew v w = ([], .error .lengthMismatch) ∧
    wtdKurt v w = ([], .error .lengthMismatch) ∧
    wtdQuantile v w ps = ([], .error .lengthMismatch) ∧
    wtdMedian v w = ([], .error .lengthMismatch) ∧
    wtdTable v w = ([], .error .lengthMismatch) ∧
    wtdMode v w = ([], .error .lengthMismatch) := by
  refine ⟨?_, ?_, ?_, ?_, ?_, ?_, ?_, ?_, ?_⟩ <;>
    simp [wtdStat, wtdMean, wtdVar, wtdSkew, wtdKurt, wtdQuantile,
      wtdMedian, wtdTable, wtdMode, h]

/-- Witness for C1 at the spec's example: values of length 3 and
weights of length 2. -/
theorem length_mismatch_rejected_before_push_witness :
    ([0, 0, 0] : List ℚ).length ≠ ([0, 0] : List ℚ).length ∧
    (wtdStat [0, 0, 0] [0, 0] 1 = ([], .error .lengthMismatch) ∧
     wtdMean [0, 0, 0] [0, 0] = ([], .error .lengthMismatch) ∧
     wtdVar [0, 0, 0] [0, 0] = ([], .error .lengthMismatch) ∧
     wtdSkew [0, 0, 0] [0, 0] = ([], .error .lengthMismatch) ∧
     wtdKurt [0, 0, 0] [0, 0] = ([], .error .lengthMismatch) ∧
     wtdQuantile [0, 0, 0] [0, 0] [1 / 2] = ([], .error .lengthMismatch) ∧
     wtdMedian [0, 0, 0] [0, 0] = ([], .error .lengthMismatch) ∧
     wtdTable [0, 0, 0] [0, 0] = ([], .error .lengthMismatch) ∧
     wtdMode [0, 0, 0] [0, 0] = ([], .error .lengthMismatch)) :=
  ⟨by decide, length_mismatch_rejected_before_push [0, 0, 0] [0, 0] [1 / 2] 1 (by decide)⟩

/-- C2 (code bug): at values = [1], weights = [1], order = 0 — a
moment order outside 1..4 — wtd_stat pushes the observation (the trace
is nonempty) and never fails with InvalidArgument: the original code
then writes stat_vec[0] on a zero-length vector (undefined behaviour,
modelled as an absent result), so no InvalidArgument condition is
detected before any Push. -/
theorem order_zero_pushes_without_invalid_argument :
    (wtdStat [1] [1] 0).1 = [(1, 1)] ∧
    (wtdStat [1] [1] 0).2 = .ok none := by
  constructor <;> simp [wtdStat]

/-- C3 counterexample: on the stream values [1,2,3], weights [1,1,1],
wtd_median and wtd_quantile at probability 0.5 do not return the same
result: wtd_median returns the unnamed scalar 2 while wtd_quantile
returns a length-one vector named by the probability. -/
theorem median_ne_quantile_result :
    wtdMedian [1, 2, 3] [1, 1, 1] ≠ wtdQuantile [1, 2, 3] [1, 1, 1] [1 / 2] := by
  decide

/-- C3 amended: wtd_median and wtd_quantile at the single probability
0.5 push the same stream and compute the same quantile value; they
differ only in output shape — wtd_quantile wraps the value in a
length-one vector named by the probability, wtd_median returns it as an
unnamed scalar. -/
theorem median_refines_quantile_half (v w : List ℚ) (h : v.length = w.length) :
    wtdMedian v w = (v.zip w, .ok (.scalar (quantileOf (v.zip w) (1 / 2)))) ∧
    wtdQuantile v w [1 / 2] =
      (v.zip w, .ok (.numVec [(1 / 2, quantileOf (v.zip w) (1 / 2))])) := by
  constructor <;> simp [wtdMedian, wtdQuantile, h]

/-- Witness for the amended C3 on the stream [1,2,3] with unit
weights. -/
theorem median_refines_quantile_half_witness :
    ([1, 2, 3] : List ℚ).length = ([1, 1, 1] : List ℚ).length ∧
    (wtdMedian [1, 2, 3] [1, 1, 1] =
      ([1, 2, 3].zip [1, 1, 1], .ok (.scalar (quantileOf ([1, 2, 3].zip [1, 1, 1]) (1 / 2)))) ∧
     wtdQuantile [1, 2, 3] [1, 1, 1] [1 / 2] =
      ([1, 2, 3].zip [1, 1, 1],
        .ok (.numVec [(1 / 2, quantileOf ([1, 2, 3].zip [1, 1, 1]) (1 / 2))]))) :=
  ⟨by decide, median_refines_quantile_half [1, 2, 3] [1, 1, 1] (by decide)⟩

/-- C8: no statistics entry point reads or writes the process-wide
globals VERBOSITY and BASE_MODULE_LOADED: running any of the nine on
the same arguments under two arbitrary ambient global states yields
identical results, and the global state is returned unchanged. -/
theorem stats_independent_of_globals (g g2 : Globals) (v w ps : List ℚ) (k : ℕ) :
    ((wtdStatG g v w k).1 = (wtdStatG g2 v w k).1 ∧ (wtdStatG g v w k).2 = g) ∧
    ((wtdMeanG g v w).1 = (wtdMeanG g2 v w).1 ∧ (wtdMeanG g v w).2 = g) ∧
    ((wtdVarG g v w).1 = (wtdVarG g2 v w).1 ∧ (wtdVarG g v w).2 = g) ∧
    ((wtdSkewG g v w).1 = (wtdSkewG g2 v w).1 ∧ (wtdSkewG g v w).2 = g) ∧
    ((wtdKurtG g v w).1 = (wtdKurtG g2 v w).1 ∧ (wtdKurtG g v w).2 = g) ∧
    ((wtdQuantileG g v w ps).1 = (wtdQuantileG g2 v w ps).1 ∧ (wtdQuantileG g v w ps).2 = g) ∧
    ((wtdMedianG g v w).1 = (wtdMedianG g2 v w).1 ∧ (wtdMedianG g v w).2 = g) ∧
    ((wtdTableG g v w).1 = (wtdTableG g2 v w).1 ∧ (wtdTableG g v w).2 = g) ∧
    ((wtdModeG g v w).1 = (wtdModeG g2 v w).1 ∧ (wtdModeG g v w).2 = g) :=
  ⟨⟨rfl, rfl⟩, ⟨rfl, rfl⟩, ⟨rfl, rfl⟩, ⟨rfl, rfl⟩, ⟨rfl, rfl⟩,
   ⟨rfl, rfl⟩, ⟨rfl, rfl⟩, ⟨rfl, rfl⟩, ⟨rfl, rfl⟩⟩

/-- C10: for every input data list lacking a names attribute,
writeDataTable returns the empty map with only the warning emitted —
it reaches no error path, and every variable of the unnamed list is
discarded rather than converted. -/
theorem write_table_unnamed_warns_and_discards (entries : List (String × RVar)) :
    writeDataTable false entries = { table := [], warned := true } := by
  simp [writeDataTable]

/-- The empty accumulator satisfies the moment invariant. -/
theorem momInv_init : MomInv MomState.init 0 0 0 := by
  simp [MomInv, MomState.init]

/-- One Welford push preserves the moment invariant (exact rational
arithmetic; the only division is by the new total weight, whose
vanishing forces the pushed and accumulated weights to be zero when
weights are non-negative). -/
theorem momInv_push {st : MomState} {ws as qs : ℚ} (h : MomInv st ws as qs)
    (o : Obs) (hw : 0 ≤ o.2) :
    MomInv (st.push o) (ws + o.2) (as + o.2 * o.1) (qs + o.2 * o.1 ^ 2) := by
  obtain ⟨hW, hW0, hA, hz, hM2⟩ := h
  obtain ⟨x, w⟩ := o
  simp only at hw
  by_cases hWn : st.W + w = 0
  · have hw0 : w = 0 := by linarith
    have hWz : st.W = 0 := by linarith
    have hm : st.mean = 0 := hz hWz
    have has : as = 0 := by rw [← hA, hm]; ring
    have hqs : st.M2 = qs := by rw [hM2, hWz]; ring
    refine ⟨?_, ?_, ?_, ?_, ?_⟩
    · simp [MomState.push, hW]
    · simp only [MomState.push]
      linarith
    · simp [MomState.push, hw0, hm, hWz, has]
    · intro _
      simp [MomState.push, hw0, hm]
    · simp [MomState.push, hw0, hm, hWz, hqs]
  · refine ⟨?_, ?_, ?_, ?_, ?_⟩
    · simp [MomState.push, hW]
    · simp only [MomState.push]
      linarith
    · simp only [MomState.push]
      rw [← hA]
      field_simp
      ring
    · intro hcon
      simp only [MomState.push] at hcon
      exact absurd hcon hWn
    · have hq : qs = st.M2 + st.W * st.mean ^ 2 := by rw [hM2]; ring
      simp only [MomState.push]
      rw [hq]
      field_simp
      ring

/-- Folding a stream of non-negatively weighted observations preserves
the moment invariant, accumulating the exact sums of the stream. -/
theorem momInv_fold :
    ∀ (s : List Obs) (st : MomState) (ws as qs : ℚ),
      MomInv st ws as qs → (∀ o ∈ s, 0 ≤ o.2) →
      MomInv (s.foldl MomState.push st) (ws + totalW s) (as + sumWX s)
        (qs + sumWX2 s)
  | [], st, ws, as, qs, h, _ => by
      simpa [totalW, sumWX, sumWX2] using h
  | o :: s, st, ws, as, qs, h, hw => by
      have h2 := momInv_push h o (hw o (List.mem_cons_self o s))
      have h3 := momInv_fold s (st.push o) _ _ _ h2
        (fun o2 ho2 => hw o2 (List.mem_cons_of_mem o ho2))
      have e1 : ws + totalW (o :: s) = ws + o.2 + totalW s := by
        simp [totalW]
        ring
      have e2 : as + sumWX (o :: s) = as + o.2 * o.1 + sumWX s := by
        simp [sumWX]
        ring
      have e3 : qs + sumWX2 (o :: s) = qs + o.2 * o.1 ^ 2 + sumWX2 s := by
        simp [sumWX2]
        ring
      rw [List.foldl_cons, e1, e2, e3]
      exact h3

/-- The moment accumulator state after a whole stream satisfies the
invariant with the stream's exact sums. -/
theorem momInv_momFold (s : List Obs) (hw : ∀ o ∈ s, 0 ≤ o.2) :
    MomInv (momFold s) (totalW s) (sumWX s) (sumWX2 s) := by
  have h := momInv_fold s MomState.init 0 0 0 momInv_init hw
  simpa [momFold] using h

/-- Expansion of the weighted sum of squared deviations about an
arbitrary centre m. -/
theorem sum_sq_expand (m : ℚ) :
    ∀ s : List Obs,
      (s.map (fun o => o.2 * (o.1 - m) ^ 2)).sum =
        sumWX2 s - 2 * m * sumWX s + m ^ 2 * totalW s
  | [] => by simp [sumWX2, sumWX, totalW]
  | o :: s => by
      have ih := sum_sq_expand m s
      simp only [List.map_cons, List.sum_cons, sumWX2, sumWX, totalW] at ih ⊢
      rw [ih]
      ring

/-- The accumulator's Variance equals the closed formula
Σ w_i (x_i − mean)^2 / W for non-negative weights (both sides are 0
when W = 0, by the total-division convention). -/
theorem varQ_eq_formula (s : List Obs) (hw : ∀ o ∈ s, 0 ≤ o.2) :
    varQ s =
      (s.map (fun o => o.2 * (o.1 - meanFormula s) ^ 2)).sum / totalW s := by
  obtain ⟨hW, hW0, hA, hz, hM2⟩ := momInv_momFold s hw
  by_cases h0 : totalW s = 0
  · rw [varQ, hW, h0, div_zero, div_zero]
  · have hmean : (momFold s).mean = meanFormula s := by
      rw [meanFormula]
      refine (eq_div_iff h0).mpr ?_
      rw [← hW]
      exact hA
    have hAf : meanFormula s * totalW s = sumWX s := by
      rw [← hmean, ← hW]
      exact hA
    rw [varQ, hM2, hW, hmean, sum_sq_expand]
    congr 1
    linear_combination (-2 * meanFormula s) * hAf

/-- The three weighted sums of a stream are invariant under
permutation. -/
theorem sums_perm {s1 s2 : List Obs} (h : s1.Perm s2) :
    totalW s1 = totalW s2 ∧ sumWX s1 = sumWX s2 ∧ sumWX2 s1 = sumWX2 s2 :=
  ⟨(h.map Prod.snd).sum_eq, (h.map _).sum_eq, (h.map _).sum_eq⟩

/-- The accumulator's Variance is invariant under permutation of the
stream (non-negative weights). -/
theorem varQ_perm {s1 s2 : List Obs} (h : s1.Perm s2)
    (hw : ∀ o ∈ s1, 0 ≤ o.2) : varQ s1 = varQ s2 := by
  have hw2 : ∀ o ∈ s2, 0 ≤ o.2 := fun o ho => hw o (h.mem_iff.mpr ho)
  rw [varQ_eq_formula s1 hw, varQ_eq_formula s2 hw2]
  obtain ⟨hT, hX, hX2⟩ := sums_perm h
  have hm : meanFormula s1 = meanFormula s2 := by
    rw [meanFormula, meanFormula, hT, hX]
  rw [sum_sq_expand, sum_sq_expand, hT, hX, hX2, hm]

/-- Inserting one observation adds its weight to the histogram total. -/
theorem histInsert_totalW (x w : ℚ) :
    ∀ h : List (ℚ × ℚ), totalW (histInsert x w h) = totalW h + w
  | [] => by simp [histInsert, totalW]
  | (y, v) :: rest => by
      by_cases h1 : x < y
      · simp only [histInsert, if_pos h1, totalW, List.map_cons, List.sum_cons]
        ring
      · by_cases h2 : x = y
        · simp only [histInsert, if_neg h1, if_pos h2, totalW, List.map_cons,
            List.sum_cons]
          ring
        · have ih := histInsert_totalW x w rest
          simp only [histInsert, if_neg h1, if_neg h2, totalW, List.map_cons,
            List.sum_cons] at ih ⊢
          rw [ih]
          ring

/-- Every key of the histogram after an insertion is the inserted value
or one of the previous keys. -/
theorem histInsert_key_mem (x w : ℚ) :
    ∀ (h : List (ℚ × ℚ)) (k : ℚ),
      k ∈ (histInsert x w h).map Prod.fst → k = x ∨ k ∈ h.map Prod.fst
  | [], k => by simp [histInsert]
  | (y, v) :: rest, k => by
      by_cases h1 : x < y
      · simp only [histInsert, if_pos h1, List.map_cons, List.mem_cons]
        tauto
      · by_cases h2 : x = y
        · simp only [histInsert, if_neg h1, if_pos h2, List.map_cons, List.mem_cons]
          tauto
        · have ih := histInsert_key_mem x w rest k
          simp only [histInsert, if_neg h1, if_neg h2, List.map_cons,
            List.mem_cons] at ih ⊢
          tauto

/-- Insertion preserves the strictly-ascending order of the histogram
positions. -/
theorem histInsert_pairwise (x w : ℚ) :
    ∀ h : List (ℚ × ℚ),
      (h.map Prod.fst).Pairwise (· < ·) →
      ((histInsert x w h).map Prod.fst).Pairwise (· < ·)
  | [], _ => by simp [histInsert]
  | (y, v) :: rest, hp => by
      rw [List.map_cons, List.pairwise_cons] at hp
      obtain ⟨hy, hrest⟩ := hp
      by_cases h1 : x < y
      · simp only [histInsert, if_pos h1, List.map_cons, List.pairwise_cons,
          List.mem_cons]
        refine ⟨?_, ?_, hrest⟩
        · rintro k (rfl | hk)
          · exact h1
          · exact h1.trans (hy k hk)
        · exact hy
      · by_cases h2 : x = y
        · simp only [histInsert, if_neg h1, if_pos h2, List.map_cons,
            List.pairwise_cons]
          exact ⟨hy, hrest⟩
        · have hyx : y < x := lt_of_le_of_ne (le_of_not_lt h1) (Ne.symm h2)
          have ih := histInsert_pairwise x w rest hrest
          simp only [histInsert, if_neg h1, if_neg h2, List.map_cons,
            List.pairwise_cons]
          refine ⟨?_, ih⟩
          intro k hk
          rcases histInsert_key_mem x w rest k hk with rfl | hk2
          · exact hyx
          · exact hy k hk2

/-- Folding a stream into a histogram adds the stream's total weight. -/
theorem histFold_totalW_aux :
    ∀ (s : List Obs) (h : List (ℚ × ℚ)),
      totalW (s.foldl (fun h2 o => histInsert o.1 o.2 h2) h) = totalW h + totalW s
  | [], h => by simp [totalW]
  | o :: s, h => by
      simp only [List.foldl_cons]
      rw [histFold_totalW_aux s _, histInsert_totalW]
      simp only [totalW, List.map_cons, List.sum_cons]
      ring

/-- The histogram total weight equals the total weight pushed. -/
theorem histFold_totalW (s : List Obs) : totalW (histFold s) = totalW s := by
  have := histFold_totalW_aux s []
  simpa [histFold, totalW] using this

/-- Folding preserves the strictly-ascending position order. -/
theorem histFold_pairwise_aux :
    ∀ (s : List Obs) (h : List (ℚ × ℚ)),
      (h.map Prod.fst).Pairwise (· < ·) →
      ((s.foldl (fun h2 o => histInsert o.1 o.2 h2) h).map Prod.fst).Pairwise (· < ·)
  | [], _, hp => hp
  | o :: s, h, hp => by
      simp only [List.foldl_cons]
      exact histFold_pairwise_aux s _ (histInsert_pairwise o.1 o.2 h hp)

/-- The positions of the folded histogram are strictly ascending. -/
theorem histFold_pairwise (s : List Obs) :
    ((histFold s).map Prod.fst).Pairwise (· < ·) :=
  histFold_pairwise_aux s [] (by simp)

/-- C6: for every stream pushed into the discrete accumulator, the
histogram produced by wtd_table has frequency sum equal to the total
weight pushed (exactly, in exact arithmetic), strictly ascending
positions with aligned frequencies, and each position at most once. -/
theorem table_invariants (v w : List ℚ) (hlen : v.length = w.length) :
    ∃ h, wtdTable v w = (v.zip w, .ok (.table h)) ∧
      totalW h = totalW (v.zip w) ∧
      (h.map Prod.fst).Pairwise (· < ·) ∧
      (h.map Prod.fst).Nodup := by
  refine ⟨histFold (v.zip w), by simp [wtdTable, hlen], histFold_totalW _, ?_, ?_⟩
  · exact histFold_pairwise _
  · exact (histFold_pairwise (v.zip w)).imp fun h => ne_of_lt h

/-- Witness for C6 at the spec's example stream [1,1,2,3,3,3] with unit
weights. -/
theorem table_invariants_witness :
    ([1, 1, 2, 3, 3, 3] : List ℚ).length = ([1, 1, 1, 1, 1, 1] : List ℚ).length ∧
    ∃ h, wtdTable [1, 1, 2, 3, 3, 3] [1, 1, 1, 1, 1, 1] =
        ([1, 1, 2, 3, 3, 3].zip [1, 1, 1, 1, 1, 1], .ok (.table h)) ∧
      totalW h = totalW ([1, 1, 2, 3, 3, 3].zip [1, 1, 1, 1, 1, 1]) ∧
      (h.map Prod.fst).Pairwise (· < ·) ∧
      (h.map Prod.fst).Nodup :=
  ⟨by decide, table_invariants [1, 1, 2, 3, 3, 3] [1, 1, 1, 1, 1, 1] (by decide)⟩

/-- C5: for every moment request with order k in 1..4, wtd_stat returns
a named sequence of exactly k entries whose names are the first k
elements of the fixed order mean, var, skew, kurt and whose values
are, positionally, the corresponding statistics of the input stream. -/
theorem stat_returns_first_k_named_stats (v w : List ℚ) (k : ℕ)
    (hlen : v.length = w.length) (hk1 : 1 ≤ k) (hk4 : k ≤ 4) :
    wtdStat v w k =
      (v.zip w, .ok (some ((statNames.take k).zip ((statList (v.zip w)).take k)))) ∧
    ((statNames.take k).zip ((statList (v.zip w)).take k)).length = k := by
  interval_cases k <;>
    exact ⟨by simp [wtdStat, hlen, statNames, statList, statVecBuild], by simp [statNames, statList]⟩

/-- Witness for C5: k = 2 on values [1,3] with unit weights. -/
theorem stat_returns_first_k_named_stats_witness :
    (([1, 3] : List ℚ).length = ([1, 1] : List ℚ).length ∧ 1 ≤ 2 ∧ 2 ≤ 4) ∧
    (wtdStat [1, 3] [1, 1] 2 =
      ([1, 3].zip [1, 1],
        .ok (some ((statNames.take 2).zip ((statList ([1, 3].zip [1, 1])).take 2)))) ∧
     ((statNames.take 2).zip ((statList ([1, 3].zip [1, 1])).take 2)).length = 2) :=
  ⟨⟨by decide, by decide, by decide⟩,
   stat_returns_first_k_named_stats [1, 3] [1, 1] 2 (by decide) (by decide) (by decide)⟩

/-- C7: for every stream (with non-negative weights, per the data
model) and every permutation of it presented as a (values, weights)
pair-sequence, wtd_var returns the identical result, and that result is
the closed formula Σ w_i (x_i − mean)^2 / W in exact arithmetic. -/
theorem var_formula_and_permutation_invariant (v w v2 w2 : List ℚ)
    (h1 : v.length = w.length) (h2 : v2.length = w2.length)
    (hperm : (v.zip w).Perm (v2.zip w2)) (hw : ∀ o ∈ v.zip w, 0 ≤ o.2) :
    (wtdVar v w).2 = (wtdVar v2 w2).2 ∧
    (wtdVar v w).2 =
      .ok (((v.zip w).map
          (fun o => o.2 * (o.1 - meanFormula (v.zip w)) ^ 2)).sum /
        totalW (v.zip w)) := by
  constructor
  · simp only [wtdVar, h1, h2, ne_eq, not_true_eq_false, if_false]
    exact congrArg Except.ok (varQ_perm hperm hw)
  · simp only [wtdVar, h1, ne_eq, not_true_eq_false, if_false]
    exact congrArg Except.ok (varQ_eq_formula _ hw)

/-- Witness for C7: the stream (1,1),(3,1) and its reversal. -/
theorem var_formula_and_permutation_invariant_witness :
    (([1, 3] : List ℚ).length = ([1, 1] : List ℚ).length ∧
     ([3, 1] : List ℚ).length = ([1, 1] : List ℚ).length ∧
     (([1, 3] : List ℚ).zip [1, 1]).Perm (([3, 1] : List ℚ).zip [1, 1]) ∧
     ∀ o ∈ ([1, 3] : List ℚ).zip [1, 1], 0 ≤ o.2) ∧
    ((wtdVar [1, 3] [1, 1]).2 = (wtdVar [3, 1] [1, 1]).2 ∧
     (wtdVar [1, 3] [1, 1]).2 =
      .ok (((([1, 3] : List ℚ).zip [1, 1]).map
          (fun o => o.2 * (o.1 - meanFormula (([1, 3] : List ℚ).zip [1, 1])) ^ 2)).sum /
        totalW (([1, 3] : List ℚ).zip [1, 1]))) :=
  ⟨⟨by decide, by decide, by decide, by decide⟩,
   var_formula_and_permutation_invariant [1, 3] [1, 1] [3, 1] [1, 1]
     (by decide) (by decide) (by decide) (by decide)⟩

/-- A value returned by the cumulative scan is the value of one of the
scanned observations. -/
theorem findQuant_mem :
    ∀ (l : List Obs) (c t x : ℚ), findQuant l c t = some x → ∃ o ∈ l, o.1 = x
  | [], c, t, x => by simp [findQuant]
  | o :: rest, c, t, x => by
      simp only [findQuant]
      by_cases h1 : t ≤ c + o.2
      · rw [if_pos h1]
        intro h
        injection h with h
        exact ⟨o, List.mem_cons_self o rest, h⟩
      · rw [if_neg h1]
        intro h
        obtain ⟨o2, ho2, h2⟩ := findQuant_mem rest (c + o.2) t x h
        exact ⟨o2, List.mem_cons_of_mem o ho2, h2⟩

/-- The cumulative weight is non-negative for non-negative weights. -/
theorem cumW_nonneg (l : List Obs) (x : ℚ) (hw : ∀ o ∈ l, 0 ≤ o.2) :
    0 ≤ cumW l x := by
  apply List.sum_nonneg
  intro a ha
  obtain ⟨o, ho, rfl⟩ := List.mem_map.mp ha
  exact hw o (List.mem_of_mem_filter ho)

/-- Cons rule for the cumulative weight. -/
theorem cumW_cons (o : Obs) (l : List Obs) (x : ℚ) :
    cumW (o :: l) x = (if o.1 ≤ x then o.2 else 0) + cumW l x := by
  by_cases h : o.1 ≤ x <;>
    simp [cumW, List.filter_cons, h]

/-- On a value-sorted list with non-negative weights, the threshold is
reached at the returned value: t ≤ c + cumulative weight at x. -/
theorem findQuant_reach :
    ∀ (l : List Obs) (c t x : ℚ), l.Sorted obsLE → (∀ o ∈ l, 0 ≤ o.2) →
      findQuant l c t = some x → t ≤ c + cumW l x
  | [], c, t, x, _, _ => by simp [findQuant]
  | o :: rest, c, t, x, hs, hw => by
      simp only [findQuant]
      by_cases h1 : t ≤ c + o.2
      · rw [if_pos h1]
        intro h
        injection h with h
        subst h
        have hrest : 0 ≤ cumW rest o.1 :=
          cumW_nonneg rest o.1 (fun o2 ho2 => hw o2 (List.mem_cons_of_mem o ho2))
        rw [cumW_cons, if_pos (le_refl o.1)]
        linarith
      · rw [if_neg h1]
        intro h
        obtain ⟨o2, ho2, h2⟩ := findQuant_mem rest (c + o.2) t x h
        have hle : o.1 ≤ x := h2 ▸ List.rel_of_sorted_cons hs o2 ho2
        have ih := findQuant_reach rest (c + o.2) t x hs.of_cons
          (fun o3 ho3 => hw o3 (List.mem_cons_of_mem o ho3)) h
        rw [cumW_cons, if_pos hle]
        linarith

/-- On a value-sorted list, the returned value is minimal among the
observed values whose cumulative weight reaches the threshold. -/
theorem findQuant_min :
    ∀ (l : List Obs) (c t x : ℚ), l.Sorted obsLE → findQuant l c t = some x →
      ∀ y, (∃ o ∈ l, o.1 = y) → t ≤ c + cumW l y → x ≤ y
  | [], c, t, x, _, hfind => by simp [findQuant] at hfind
  | o :: rest, c, t, x, hs, hfind => by
      intro y hy hcum
      simp only [findQuant] at hfind
      by_cases h1 : t ≤ c + o.2
      · rw [if_pos h1] at hfind
        injection hfind with hfind
        subst hfind
        obtain ⟨o2, ho2, rfl⟩ := hy
        rcases List.mem_cons.mp ho2 with h | ho2r
        · rw [h]
        · exact List.rel_of_sorted_cons hs o2 ho2r
      · rw [if_neg h1] at hfind
        obtain ⟨o2, ho2, rfl⟩ := hy
        rcases List.mem_cons.mp ho2 with h | ho2r
        · subst h
          by_cases hmem : ∃ o3 ∈ rest, o3.1 = o2.1
          · have hcum2 : t ≤ c + o2.2 + cumW rest o2.1 := by
              rw [cumW_cons, if_pos (le_refl o2.1)] at hcum
              linarith
            exact findQuant_min rest (c + o2.2) t x hs.of_cons hfind o2.1 hmem hcum2
          · have hfilter : rest.filter (fun o3 => o3.1 ≤ o2.1) = [] := by
              rw [List.filter_eq_nil_iff]
              intro o3 ho3
              simp only [decide_eq_true_eq]
              intro hle3
              have hge : o2.1 ≤ o3.1 := List.rel_of_sorted_cons hs o3 ho3
              exact hmem ⟨o3, ho3, le_antisymm hle3 hge⟩
            have hzero : cumW rest o2.1 = 0 := by
              rw [cumW, hfilter]
              simp
            rw [cumW_cons, if_pos (le_refl o2.1), hzero] at hcum
            exact absurd (by linarith : t ≤ c + o2.2) h1
        · have hle : o.1 ≤ o2.1 := List.rel_of_sorted_cons hs o2 ho2r
          have hcum2 : t ≤ c + o.2 + cumW rest o2.1 := by
            rw [cumW_cons, if_pos hle] at hcum
            linarith
          exact findQuant_min rest (c + o.2) t x hs.of_cons hfind o2.1
            ⟨o2, ho2r, rfl⟩ hcum2

/-- The scan succeeds on a non-empty list whose total weight reaches
the threshold. -/
theorem findQuant_isSome :
    ∀ (l : List Obs) (c t : ℚ), l ≠ [] → t ≤ c + totalW l →
      ∃ x, findQuant l c t = some x
  | [], _, _, h, _ => absurd rfl h
  | o :: rest, c, t, _, hle => by
      simp only [findQuant]
      by_cases h1 : t ≤ c + o.2
      · exact ⟨o.1, by rw [if_pos h1]⟩
      · rw [if_neg h1]
        cases rest with
        | nil =>
            exfalso
            simp only [totalW, List.map_cons, List.map_nil, List.sum_cons,
              List.sum_nil, add_zero] at hle
            exact h1 (by linarith)
        | cons o2 rest2 =>
            apply findQuant_isSome (o2 :: rest2) (c + o.2) t (by simp)
            simp only [totalW, List.map_cons, List.sum_cons] at hle ⊢
            linarith

/-- Cumulative weight is invariant under permutation. -/
theorem cumW_perm {l1 l2 : List Obs} (h : l1.Perm l2) (x : ℚ) :
    cumW l1 x = cumW l2 x :=
  ((h.filter _).map Prod.snd).sum_eq

/-- Sorting the observations is a permutation. -/
theorem sortObs_perm (s : List Obs) : (sortObs s).Perm s :=
  List.perm_insertionSort obsLE s

/-- The sorted observations are sorted by value. -/
theorem sortObs_sorted (s : List Obs) : (sortObs s).Sorted obsLE :=
  List.sorted_insertionSort obsLE s

/-- C4: for every non-empty stream with non-negative weights and total
weight W > 0 and every probability p in [0,1], the quantile returned by
wtd_quantile for p is an observed value x whose cumulative weight
reaches p·W, and x is the smallest observed value doing so (ties
resolve to the lowest qualifying value). -/
theorem quantile_is_inverse_cdf (v w : List ℚ) (p : ℚ)
    (hlen : v.length = w.length) (hne : v ≠ [])
    (hw : ∀ o ∈ v.zip w, 0 ≤ o.2)
    (hW : 0 < totalW (v.zip w)) (hp0 : 0 ≤ p) (hp1 : p ≤ 1) :
    ∃ x, wtdQuantile v w [p] = (v.zip w, .ok (.numVec [(p, x)])) ∧
      (∃ o ∈ v.zip w, o.1 = x) ∧
      p * totalW (v.zip w) ≤ cumW (v.zip w) x ∧
      ∀ y, (∃ o ∈ v.zip w, o.1 = y) →
        p * totalW (v.zip w) ≤ cumW (v.zip w) y → x ≤ y := by
  have hperm : (sortObs (v.zip w)).Perm (v.zip w) := sortObs_perm (v.zip w)
  have hsorted : (sortObs (v.zip w)).Sorted obsLE := sortObs_sorted (v.zip w)
  have hwl : ∀ o ∈ sortObs (v.zip w), 0 ≤ o.2 := fun o ho => hw o (hperm.subset ho)
  have hsne : v.zip w ≠ [] := by
    intro hnil
    rw [hnil] at hW
    simp [totalW] at hW
  have hlne : sortObs (v.zip w) ≠ [] := by
    intro hnil
    apply hsne
    have hlen2 := hperm.length_eq
    rw [hnil] at hlen2
    exact List.length_eq_zero.mp hlen2.symm
  have htot : totalW (sortObs (v.zip w)) = totalW (v.zip w) :=
    (hperm.map Prod.snd).sum_eq
  have ht : p * totalW (v.zip w) ≤ 0 + totalW (sortObs (v.zip w)) := by
    rw [htot, zero_add]
    exact mul_le_of_le_one_left hW.le hp1
  obtain ⟨x, hx⟩ := findQuant_isSome (sortObs (v.zip w)) 0 (p * totalW (v.zip w))
    hlne ht
  have hq : quantileOf (v.zip w) p = x := by
    rw [quantileOf, hx]
    rfl
  refine ⟨x, ?_, ?_, ?_, ?_⟩
  · simp only [wtdQuantile, hlen, ne_eq, not_true_eq_false, if_false,
      List.map_cons, List.map_nil]
    rw [hq]
  · obtain ⟨o, ho, hox⟩ := findQuant_mem _ 0 (p * totalW (v.zip w)) x hx
    exact ⟨o, hperm.subset ho, hox⟩
  · have hreach := findQuant_reach _ 0 (p * totalW (v.zip w)) x hsorted hwl hx
    rw [cumW_perm hperm] at hreach
    linarith
  · intro y hy hcy
    apply findQuant_min _ 0 (p * totalW (v.zip w)) x hsorted hx y
    · obtain ⟨o, ho, rfl⟩ := hy
      exact ⟨o, hperm.mem_iff.mpr ho, rfl⟩
    · rw [cumW_perm hperm]
      linarith

/-- Witness for C4: the spec's tie-boundary example, values
[10,20,30,40] with unit weights at p = 0.5 (the returned quantile must
be the lowest qualifying value, 20). -/
theorem quantile_is_inverse_cdf_witness :
    (([10, 20, 30, 40] : List ℚ).length = ([1, 1, 1, 1] : List ℚ).length ∧
     ([10, 20, 30, 40] : List ℚ) ≠ [] ∧
     (∀ o ∈ ([10, 20, 30, 40] : List ℚ).zip ([1, 1, 1, 1] : List ℚ), 0 ≤ o.2) ∧
     0 < totalW (([10, 20, 30, 40] : List ℚ).zip ([1, 1, 1, 1] : List ℚ)) ∧
     (0 : ℚ) ≤ 1 / 2 ∧ (1 / 2 : ℚ) ≤ 1) ∧
    ∃ x, wtdQuantile [10, 20, 30, 40] [1, 1, 1, 1] [1 / 2] =
        (([10, 20, 30, 40] : List ℚ).zip ([1, 1, 1, 1] : List ℚ),
          .ok (.numVec [(1 / 2, x)])) ∧
      (∃ o ∈ ([10, 20, 30, 40] : List ℚ).zip ([1, 1, 1, 1] : List ℚ), o.1 = x) ∧
      1 / 2 * totalW (([10, 20, 30, 40] : List ℚ).zip ([1, 1, 1, 1] : List ℚ)) ≤
        cumW (([10, 20, 30, 40] : List ℚ).zip ([1, 1, 1, 1] : List ℚ)) x ∧
      ∀ y, (∃ o ∈ ([10, 20, 30, 40] : List ℚ).zip ([1, 1, 1, 1] : List ℚ), o.1 = y) →
        1 / 2 * totalW (([10, 20, 30, 40] : List ℚ).zip ([1, 1, 1, 1] : List ℚ)) ≤
          cumW (([10, 20, 30, 40] : List ℚ).zip ([1, 1, 1, 1] : List ℚ)) y → x ≤ y :=
  ⟨⟨by rfl, by simp, by intro o ho; fin_cases ho <;> norm_num,
    by norm_num [totalW], by norm_num, by norm_num⟩,
   quantile_is_inverse_cdf [10, 20, 30, 40] [1, 1, 1, 1] (1 / 2)
     (by rfl) (by simp) (by intro o ho; fin_cases ho <;> norm_num)
     (by norm_num [totalW]) (by norm_num) (by norm_num)⟩

/-- Cons rule for replace_copy. -/
theorem replaceCopy_cons (a b x : RD) (l : List RD) :
    replaceCopy a b (x :: l) = (if x = a then b else x) :: replaceCopy a b l := rfl

/-- replace_copy preserves the length of the sequence. -/
theorem replaceCopy_length (a b : RD) (l : List RD) :
    (replaceCopy a b l).length = l.length := by
  simp [replaceCopy]

/-- On a sequence free of the internal sentinel, replacing NA_REAL by
BIIPS_REALNA and back restores the sequence. -/
theorem replaceCopy_roundtrip :
    ∀ l : List RD, RD.biipsNA ∉ l →
      replaceCopy .biipsNA .na (replaceCopy .na .biipsNA l) = l
  | [], _ => rfl
  | x :: l, h => by
      have hx : x ≠ RD.biipsNA := fun hc => h (by rw [← hc]; exact List.mem_cons_self x l)
      have hl : RD.biipsNA ∉ l := fun hc => h (List.mem_cons_of_mem x hc)
      have ih := replaceCopy_roundtrip l hl
      rw [replaceCopy_cons]
      by_cases hna : x = RD.na
      · simp [replaceCopy_cons, hna, ih]
      · simp [replaceCopy_cons, hna, hx, ih]

/-- Writing then reading one variable restores its values (when they
contain no occurrence of the internal sentinel BIIPS_REALNA) and gives
it the dim attribute [length] when it had none, its own otherwise
(assuming the dim attribute is consistent with the length, as R
guarantees). -/
theorem readVar_writeVar (v : RVar) (hna : RD.biipsNA ∉ v.vals)
    (hdim : dimOK v) :
    readVar (writeVar v) =
      { vals := v.vals, dim := some (v.dim.getD [v.vals.length]) } := by
  obtain ⟨vals, dim⟩ := v
  cases dim with
  | none =>
      simp only [dimOK, Option.getD_none] at hdim ⊢
      simp only [writeVar, readVar]
      congr 1
      rw [replaceCopy_roundtrip vals hna, replaceCopy_length]
      simp
  | some d =>
      simp only [dimOK, Option.getD_some] at hdim ⊢
      simp only [writeVar, readVar]
      congr 1
      rw [replaceCopy_roundtrip vals hna, replaceCopy_length, hdim]
      simp

/-- Inserting an absent key into the map appends it. -/
theorem mapInsert_notmem (k : String) (a : MultiArray) :
    ∀ m : List (String × MultiArray), k ∉ m.map Prod.fst →
      mapInsert k a m = m ++ [(k, a)]
  | [], _ => rfl
  | (k2, b) :: rest, h => by
      have hk : k ≠ k2 := by
        intro hc
        apply h
        rw [hc, List.map_cons]
        exact List.mem_cons_self k2 _
      have hrest : k ∉ rest.map Prod.fst := by
        intro hc
        apply h
        rw [List.map_cons]
        exact List.mem_cons_of_mem k2 hc
      simp only [mapInsert, if_neg hk]
      rw [mapInsert_notmem k a rest hrest]
      simp

/-- Folding distinct-named entries into the map appends their
conversions in order. -/
theorem writeFold_eq (f : RVar → MultiArray) :
    ∀ (entries : List (String × RVar)) (acc : List (String × MultiArray)),
      (entries.map Prod.fst).Nodup →
      (∀ k ∈ entries.map Prod.fst, k ∉ acc.map Prod.fst) →
      entries.foldl (fun m e => mapInsert e.1 (f e.2) m) acc =
        acc ++ entries.map (fun e => (e.1, f e.2))
  | [], acc, _, _ => by simp
  | e :: es, acc, hnd, hdisj => by
      have hnd0 := hnd
      rw [List.map_cons, List.nodup_cons] at hnd0
      have hdisj2 : ∀ k ∈ es.map Prod.fst,
          k ∉ (acc ++ [(e.1, f e.2)]).map Prod.fst := by
        intro k hk
        rw [List.map_append, List.mem_append]
        rintro (hc | hc)
        · exact hdisj k (by rw [List.map_cons]; exact List.mem_cons_of_mem _ hk) hc
        · simp only [List.map_cons, List.map_nil, List.mem_singleton] at hc
          subst hc
          exact hnd0.1 hk
      simp only [List.foldl_cons]
      rw [mapInsert_notmem e.1 (f e.2) acc
        (hdisj e.1 (by rw [List.map_cons]; exact List.mem_cons_self _ _)),
        writeFold_eq f es _ hnd0.2 hdisj2]
      simp

/-- C9 counterexample: the single-variable table x = [BIIPS_REALNA]
with no dim attribute does not survive the write/read round trip: its
value comes back as NA_REAL and it acquires the dim attribute [1]. -/
theorem roundtrip_not_identity :
    readDataTable (writeDataTable true [("x", ⟨[RD.biipsNA], none⟩)]).table ≠
      [("x", ⟨[RD.biipsNA], none⟩)] := by
  decide

/-- C9 amended: for a named data table with distinct names, variables
containing no occurrence of the internal sentinel BIIPS_REALNA, and dim
attributes consistent with the value lengths, reading back after
writing restores every variable's value sequence (missing NA_REAL
entries round-trip through BIIPS_REALNA) and restores the dim attribute
of every variable that has one, while a variable without a dim
attribute comes back with dim = [length]. -/
theorem roundtrip_table (entries : List (String × RVar))
    (hnd : (entries.map Prod.fst).Nodup)
    (hna : ∀ e ∈ entries, RD.biipsNA ∉ e.2.vals)
    (hdim : ∀ e ∈ entries, dimOK e.2) :
    readDataTable (writeDataTable true entries).table =
      entries.map (fun e =>
        (e.1, { vals := e.2.vals, dim := some (e.2.dim.getD [e.2.vals.length]) })) := by
  rw [writeDataTable]
  simp only [if_pos]
  rw [writeFold_eq writeVar entries [] hnd (by simp), List.nil_append,
    readDataTable, List.map_map]
  apply List.map_congr_left
  intro e he
  simp only [Function.comp_apply]
  rw [readVar_writeVar e.2 (hna e he) (hdim e he)]

/-- Witness for the amended C9: the table x = [NA_REAL, 2] with dim
attribute [2,1]. -/
theorem roundtrip_table_witness :
    ((([("x", ⟨[RD.na, RD.num 2], some [2, 1]⟩)] :
        List (String × RVar)).map Prod.fst).Nodup ∧
     (∀ e ∈ ([("x", ⟨[RD.na, RD.num 2], some [2, 1]⟩)] : List (String × RVar)),
        RD.biipsNA ∉ e.2.vals) ∧
     (∀ e ∈ ([("x", ⟨[RD.na, RD.num 2], some [2, 1]⟩)] : List (String × RVar)),
        dimOK e.2)) ∧
    readDataTable
        (writeDataTable true [("x", ⟨[RD.na, RD.num 2], some [2, 1]⟩)]).table =
      ([("x", ⟨[RD.na, RD.num 2], some [2, 1]⟩)] : List (String × RVar)).map
        (fun e =>
          (e.1, { vals := e.2.vals, dim := some (e.2.dim.getD [e.2.vals.length]) })) :=
  ⟨⟨by decide, by decide, by decide⟩,
   roundtrip_table [("x", ⟨[RD.na, RD.num 2], some [2, 1]⟩)]
     (by decide) (by decide) (by decide)⟩

end Rbiips
